import Mathlib

/-!
Verification of the bulk-send decision and personalization pipeline of
`@kxtech/email-utils` (files `src/services/bulk-email.ts`,
`src/services/bounce-tracker.ts`, `src/services/ses.ts`,
`lambda/bulk-processor.ts`).

The TypeScript code is shallowly embedded: strings are `List Char`,
JavaScript runtime values that can appear in a personalization map are the

inductive `JSValue`, asynchronous collaborator calls (SES send, DynamoDB
bounce query, SQS enqueue) are oracles passed in as explicit function
arguments, and thrown exceptions are `Except` error values carrying the
message.  Fields of the source records that cannot influence any verified
property (wall-clock `timestamp:new Date()` stamps on results, `messageId`,
SES tag plumbing) are elided; time *is* modelled (as integer epoch
milliseconds) where it matters, namely in the 24-hour soft-bounce window of
`hasEmailBounced`.  Regex token patterns `{{key}}` are modelled as literal
substring replacement, which coincides with the source for keys free of
regex metacharacters and values free of `$`-escapes.
-/

/-- JavaScript runtime values usable in a personalization data map. -/
inductive JSValue
  | vStr (s : List Char)
  | vNum (n : Int)
  | vBool (b : Bool)
  | vNull
  | vUndefined
deriving DecidableEq, Repr

/-- JavaScript `String(v)` coercion. -/
def jsString : JSValue → List Char
  | .vStr s => s
  | .vNum n => (toString n).toList
  | .vBool b => (if b then "true" else "false").toList
  | .vNull => "null".toList
  | .vUndefined => "undefined".toList

/-- JavaScript truthiness of a value. -/
def jsTruthy : JSValue → Bool
  | .vStr s => !s.isEmpty
  | .vNum n => n != 0
  | .vBool b => b
  | .vNull => false
  | .vUndefined => false

/-- The string actually substituted by the source, `String(value || '')`:
the empty string for every falsy value. -/
def substVal (v : JSValue) : List Char :=
  if jsTruthy v then jsString v else []

/-- Modelled from the spec: the substitution string the specification
prescribes, `String(value)` with only `undefined`/`null` mapped to the
empty string (used to compare against `substVal`). -/
def substValSpec (v : JSValue) : List Char :=
  match v with
  | .vNull => []
  | .vUndefined => []
  | v => jsString v

/-- `EmailContent` of `src/types`: rendered subject/html/text. -/
structure EmailContent where
  subject : List Char
  html : List Char
  text : List Char
deriving DecidableEq, Repr

/-- A bulk recipient (`{email, name?, personalizedData?}`). -/
structure Recipient where
  email : List Char
  name : Option (List Char)
  personalizedData : Option (List (List Char × JSValue))
deriving DecidableEq, Repr

/-- `BulkEmailService.chunkArray`: successive slices of length `chunkSize`.
The source's `for (let i = 0; i < array.length; i += chunkSize)` loop is the
structural recursion below; `chunkSize = 0` (on which the source loop would
not terminate) is mapped to the empty chunk list and is outside every
contract (`size <= 0` is a caller error per the spec). -/
def chunkArray (l : List α) (chunkSize : Nat) : List (List α) :=
  if chunkSize = 0 then []
  else
    match l with
    | [] => []
    | x :: xs => (x :: xs).take chunkSize :: chunkArray ((x :: xs).drop chunkSize) chunkSize
termination_by l.length
decreasing_by
  simp only [List.length_drop, List.length_cons]
  omega

/-- JavaScript `content.replace(new RegExp(`\x7b\x7b${key}\x7d\x7d`, 'g'), rep)`
for one key, as the left-to-right non-overlapping literal scan that the `g`
regex performs (keys are free of regex metacharacters in the model). -/
def replaceAllL (pat rep : List Char) (s : List Char) : List Char :=
  match s with
  | [] => []
  | c :: cs =>
    if h : pat ≠ [] ∧ pat.isPrefixOf (c :: cs) then
      rep ++ replaceAllL pat rep ((c :: cs).drop pat.length)
    else
      c :: replaceAllL pat rep cs
termination_by s.length
decreasing_by
  · simp only [List.length_drop, List.length_cons]
    have hp : 0 < pat.length := List.length_pos.mpr h.1
    omega
  · simp only [List.length_cons]
    omega

/-- The pieces of `s` between the leftmost non-overlapping occurrences of
`pat` (specification-side view of what the global replace visits). -/
def splitOnL (pat : List Char) (s : List Char) : List (List Char) :=
  match s with
  | [] => [[]]
  | c :: cs =>
    if h : pat ≠ [] ∧ pat.isPrefixOf (c :: cs) then
      [] :: splitOnL pat ((c :: cs).drop pat.length)
    else
      (c :: (splitOnL pat cs).headI) :: (splitOnL pat cs).tail
termination_by s.length
decreasing_by
  · simp only [List.length_drop, List.length_cons]
    have hp : 0 < pat.length := List.length_pos.mpr h.1
    omega
  · simp only [List.length_cons]
    omega

/-- Join pieces with a separator between consecutive pieces. -/
def joinSep (sep : List Char) : List (List Char) → List Char
  | [] => []
  | [p] => p
  | p :: q :: ps => p ++ sep ++ joinSep sep (q :: ps)

/-- Whether `pat` occurs as a contiguous substring of `s`. -/
def containsTok (pat : List Char) : List Char → Bool
  | [] => pat.isEmpty
  | c :: cs => pat.isPrefixOf (c :: cs) || containsTok pat cs

/-- The literal token text for `key`. -/
def mkToken (key : List Char) : List Char :=
  '{' :: '{' :: (key ++ ['}', '}'])

/-- `BulkEmailService.replaceTokens` (also `personalizeContent` of
`lambda/bulk-processor.ts`): iterate `Object.entries(data)` in insertion
order, globally replacing each token with `String(value || '')`. -/
def replaceTokens (content : List Char) (data : List (List Char × JSValue)) : List Char :=
  data.foldl (fun acc kv => replaceAllL (mkToken kv.1) (substVal kv.2) acc) content

/-- `BulkEmailService.personalizeContent`: applies `replaceTokens` to
subject, html and text, returning a fresh value. -/
def personalizeContent (content : EmailContent) (data : List (List Char × JSValue)) :
    EmailContent :=
  { subject := replaceTokens content.subject data,
    html := replaceTokens content.html data,
    text := replaceTokens content.text data }

/-- Modelled from the spec: the same replacement pipeline but substituting
`String(value)` with only `undefined`/`null` as empty string, exactly as
claim C5 words it (to compare with the source's `personalizeContent`). -/
def replaceTokensSpec (content : List Char) (data : List (List Char × JSValue)) : List Char :=
  data.foldl (fun acc kv => replaceAllL (mkToken kv.1) (substValSpec kv.2) acc) content

/-- Modelled from the spec: `personalize` as claim C5 describes it. -/
def personalizeContentSpec (content : EmailContent) (data : List (List Char × JSValue)) :
    EmailContent :=
  { subject := replaceTokensSpec content.subject data,
    html := replaceTokensSpec content.html data,
    text := replaceTokensSpec content.text data }

/-- Presence flags and settings of a constructed `BulkEmailService`:
`hasQueueTransport` models `this.sqsClient` (the constructor creates it iff
`bulkQueueUrl` is configured, so one flag covers both), `hasBounceTracker`
models `this.bounceTracker`; the numeric defaults 50 and 10 mirror the
constructor's `maxImmediateBatchSize`/`defaultChunkSize` defaults. -/
structure BulkEmailConfig where
  hasQueueTransport : Bool
  hasBounceTracker : Bool
  defaultFrom : List Char
  maxImmediateBatchSize : Nat := 50
  defaultChunkSize : Nat := 10
deriving DecidableEq, Repr

/-- The `options` of `sendBulkEmails` that steer control flow.
`hasScheduledFor` is the presence of `scheduledFor` (a `Date` is always
truthy); `chunkSize = 0` models an absent or zero `options.chunkSize`
(both falsy for the `options.chunkSize ||` default); `campaign`/`type`
only feed message metadata and are elided. -/
structure BulkOptions where
  forceQueue : Bool
  hasScheduledFor : Bool
  chunkSize : Nat
  fromAddr : Option (List Char)
  replyTo : Option (List Char)
deriving DecidableEq, Repr

/-- The two processing paths. -/
inductive Strategy
  | immediate
  | queued
deriving DecidableEq, Repr

/-- Lines 311-313 of the service: `const shouldQueue = options.forceQueue ||
(this.sqsClient && totalRecipients > this.config.maxImmediateBatchSize!) ||
options.scheduledFor`. -/
def shouldQueue (cfg : BulkEmailConfig) (opts : BulkOptions) (totalRecipients : Nat) : Bool :=
  opts.forceQueue ||
    (cfg.hasQueueTransport && decide (totalRecipients > cfg.maxImmediateBatchSize)) ||
    opts.hasScheduledFor

/-- Line 315: the branch actually taken is `if (shouldQueue && this.sqsClient)`. -/
def selectStrategy (cfg : BulkEmailConfig) (opts : BulkOptions)
    (totalRecipients : Nat) : Strategy :=
  if shouldQueue cfg opts totalRecipients && cfg.hasQueueTransport then .queued
  else .immediate

/-- Modelled from the spec: claim C1's ordered strategy rule (`forceQueue` →
queue; else `scheduledFor` → queue; else transport configured and count
above threshold → queue; else immediate). -/
def selectStrategySpec (cfg : BulkEmailConfig) (opts : BulkOptions)
    (totalRecipients : Nat) : Strategy :=
  if opts.forceQueue then .queued
  else if opts.hasScheduledFor then .queued
  else if cfg.hasQueueTransport && decide (totalRecipients > cfg.maxImmediateBatchSize) then
    .queued
  else .immediate

/-- `EmailResult` of `src/types` (`{success, error?, recipient}`);
`messageId` and the `timestamp` stamp are elided (no verified property
observes them). -/
structure EmailResult where
  success : Bool
  error : Option (List Char)
  recipient : List Char
deriving DecidableEq, Repr

/-- The tri-state `BulkEmailResult.status`; `mixed` is the source's
string value for partial success. -/
inductive JobStatus
  | completed
  | mixed
  | failed
deriving DecidableEq, Repr

/-- `BulkEmailResult` of `src/types`. -/
structure BulkEmailResult where
  jobId : List Char
  totalRecipients : Nat
  successCount : Nat
  failureCount : Nat
  results : List EmailResult
  status : JobStatus
deriving DecidableEq, Repr

/-- Line 556: `failureCount === 0 ? 'completed' : failureCount ===
results.length ? 'failed' : 'partial'`. -/
def aggregateStatus (failureCount resultsLen : Nat) : JobStatus :=
  if failureCount = 0 then .completed
  else if failureCount = resultsLen then .failed
  else .mixed

/-- Outcome of one settled promise of `Promise.allSettled(recipients.map(r
=> bounceTracker.hasEmailBounced(r.email)))` (line 482). -/
inductive BounceCheck
  | fulfilled (bounced : Bool)
  | rejected
deriving DecidableEq, Repr

/-- The single-recipient message built at lines 516-525 (metadata tags
elided). -/
structure EmailMessage where
  fromAddr : List Char
  toAddr : List Char
  content : EmailContent
  replyTo : Option (List Char)
deriving DecidableEq, Repr

/-- Collaborator oracles for one `processImmediately` run: the settled
bounce check per email address, and `sesService.sendEmail` per message —
`.ok` is the `EmailResult` the promise resolved with, `.error` the message
of a thrown exception (caught per recipient at lines 538-547). -/
structure ImmediateEnv where
  bounce : List Char → BounceCheck
  send : EmailMessage → Except (List Char) EmailResult

/-- Line 492 error text. -/
def bouncedErrorMsg : List Char :=
  "Email address has previously bounced".toList

/-- Lines 486-499 filter predicate: suppressed iff the settled check is
fulfilled with `true`; a rejected check keeps the recipient (fail open). -/
def isSuppressed (env : ImmediateEnv) (r : Recipient) : Bool :=
  match env.bounce r.email with
  | .fulfilled b => b
  | .rejected => false

/-- Lines 481-501: one pass over the recipients producing the active list
and, in recipient order, the synthetic failure results pushed for
suppressed entries. -/
def bounceFilter (env : ImmediateEnv) : List Recipient → List Recipient × List EmailResult
  | [] => ([], [])
  | r :: rs =>
    let rest := bounceFilter env rs
    if isSuppressed env r then
      (rest.1, ⟨false, some bouncedErrorMsg, r.email⟩ :: rest.2)
    else
      (r :: rest.1, rest.2)

/-- JavaScript object-literal update `{...d, k: v}`: overwrite in place if
the key exists (keeping its position), else append. -/
def setKey (d : List (List Char × JSValue)) (k : List Char) (v : JSValue) :
    List (List Char × JSValue) :=
  if d.any (fun kv => kv.1 == k) then
    d.map (fun kv => if kv.1 == k then (k, v) else kv)
  else d ++ [(k, v)]

/-- `recipientName: recipient.name` — `undefined` when the name is absent. -/
def recipientNameVal (r : Recipient) : JSValue :=
  match r.name with
  | some n => .vStr n
  | none => .vUndefined

/-- Lines 509-513 (and lambda lines 78-97): `{...recipient.personalizedData,
recipientEmail: recipient.email, recipientName: recipient.name}`. -/
def augmentData (d : List (List Char × JSValue)) (r : Recipient) :
    List (List Char × JSValue) :=
  setKey (setKey d "recipientEmail".toList (.vStr r.email))
    "recipientName".toList (recipientNameVal r)

/-- Lines 506-514: the content used for one recipient — personalized with
the augmented map when `personalizedData` is present, the base content
untouched otherwise. -/
def contentFor (base : EmailContent) (r : Recipient) : EmailContent :=
  match r.personalizedData with
  | none => base
  | some d => personalizeContent base (augmentData d r)

/-- Lines 516-525: the per-recipient send request. -/
def buildMessage (cfg : BulkEmailConfig) (opts : BulkOptions) (base : EmailContent)
    (r : Recipient) : EmailMessage :=
  { fromAddr := opts.fromAddr.getD cfg.defaultFrom,
    toAddr := r.email,
    content := contentFor base r,
    replyTo := opts.replyTo }

/-- The `EmailResult` recorded for one active recipient: the transport's
result when the awaited send resolves, the catch-block entry when it
throws (lines 527-547). -/
def entryFor (cfg : BulkEmailConfig) (opts : BulkOptions) (env : ImmediateEnv)
    (base : EmailContent) (r : Recipient) : EmailResult :=
  match env.send (buildMessage cfg opts base r) with
  | .ok res => res
  | .error m => ⟨false, some m, r.email⟩

/-- Lines 504-548: the sequential send loop; returns (results in order,
successCount, failureCount). -/
def sendLoop (cfg : BulkEmailConfig) (opts : BulkOptions) (env : ImmediateEnv)
    (base : EmailContent) : List Recipient → List EmailResult × Nat × Nat
  | [] => ([], 0, 0)
  | r :: rs =>
    let e := entryFor cfg opts env base r
    let rest := sendLoop cfg opts env base rs
    (e :: rest.1,
      (if e.success then 1 else 0) + rest.2.1,
      (if e.success then 0 else 1) + rest.2.2)

/-- `BulkEmailService.processImmediately` (lines 465-558). -/
def processImmediately (cfg : BulkEmailConfig) (opts : BulkOptions)
    (env : ImmediateEnv) (jobId : List Char) (recipients : List Recipient)
    (base : EmailContent) : BulkEmailResult :=
  let filtered :=
    if cfg.hasBounceTracker then bounceFilter env recipients else (recipients, [])
  let loop := sendLoop cfg opts env base filtered.1
  let results := filtered.2 ++ loop.1
  let failureCount := filtered.2.length + loop.2.2
  { jobId := jobId,
    totalRecipients := recipients.length,
    successCount := loop.2.1,
    failureCount := failureCount,
    results := results,
    status := aggregateStatus failureCount results.length }

/-- Line 453 error text prefix. -/
def failedToQueueMsg (m : List Char) : List Char :=
  "Failed to queue: ".toList ++ m

/-- `BulkEmailService.queueBulkEmailJob` (lines 378-459).  The per-chunk
`sqsClient.send` submissions raced by `Promise.all` are abstracted by the
oracle `enq` on the chunk index (message bodies do not influence the
returned result); a rejection of any chunk sends the whole call into the
catch block with the least-index rejection's error (the determinization of
`Promise.all`'s failure value); the leading `.error` is the `throw` at
line 388 when no SQS client/queue URL is configured. -/
def queueBulkEmailJob (cfg : BulkEmailConfig) (opts : BulkOptions)
    (enq : Nat → Option (List Char)) (jobId : List Char)
    (recipients : List Recipient) : Except (List Char) BulkEmailResult :=
  if cfg.hasQueueTransport = false then
    .error "SQS client or queue URL not configured for bulk processing".toList
  else
    let chunkSize := if opts.chunkSize = 0 then cfg.defaultChunkSize else opts.chunkSize
    let chunks := chunkArray recipients chunkSize
    match (List.range chunks.length).findSome? enq with
    | none =>
      .ok { jobId := jobId, totalRecipients := recipients.length,
            successCount := 0, failureCount := 0, results := [],
            status := .completed }
    | some m =>
      .ok { jobId := jobId, totalRecipients := recipients.length,
            successCount := 0, failureCount := recipients.length,
            results := recipients.map (fun r =>
              ⟨false, some (failedToQueueMsg m), r.email⟩),
            status := .failed }

/-- `BulkEmailService.sendBulkEmails` (lines 290-330): strategy selection
and dispatch. -/
def sendBulkEmails (cfg : BulkEmailConfig) (opts : BulkOptions)
    (env : ImmediateEnv) (enq : Nat → Option (List Char)) (jobId : List Char)
    (recipients : List Recipient) (content : EmailContent) :
    Except (List Char) BulkEmailResult :=
  if shouldQueue cfg opts recipients.length && cfg.hasQueueTransport then
    queueBulkEmailJob cfg opts enq jobId recipients
  else
    .ok (processImmediately cfg opts env jobId recipients content)

/-- A `BulkEmailService` constructed with only the required configuration:
the constructor fills `maxImmediateBatchSize := 50` and
`defaultChunkSize := 10` (lines 269-274). -/
def mkBulkEmailConfig (hasQueueTransport hasBounceTracker : Bool)
    (defaultFrom : List Char) : BulkEmailConfig :=
  { hasQueueTransport := hasQueueTransport,
    hasBounceTracker := hasBounceTracker,
    defaultFrom := defaultFrom }

/-- Bounce record types; `other` covers any unexpected stored string, for
which `hasEmailBounced` falls through to `return false` (line 60). -/
inductive BounceType
  | hard
  | soft
  | complaint
  | other
deriving DecidableEq, Repr

/-- A DynamoDB bounce item as read by `hasEmailBounced` (timestamp as epoch
milliseconds). -/
structure BounceItem where
  bounceType : BounceType
  timestamp : Int
deriving DecidableEq, Repr

/-- 24 hours in milliseconds: the source's `hoursSinceBounce < 24` over JS
doubles coincides with the exact integer comparison
`now - timestamp < 86400000` for every representable timestamp. -/
def msPerDay : Int := 86400000

/-- `BounceTracker.hasEmailBounced` (bounce-tracker lines 29-65): `query`
is the DynamoDB query outcome for the (lowercased) address — `.error` a
rejected call (caught at line 61: assume not bounced), `.ok` the
most-recent-first item list (`Limit: 1` keeps at most one). -/
def hasEmailBounced (query : Except Unit (List BounceItem)) (now : Int) : Bool :=
  match query with
  | .error _ => false
  | .ok [] => false
  | .ok (latest :: _) =>
    if latest.bounceType = .hard ∨ latest.bounceType = .complaint then true
    else if latest.bounceType = .soft then
      decide (now - latest.timestamp < msPerDay)
    else false

/-- The queue-consumer lambda's per-recipient personalization
(`lambda/bulk-processor.ts` lines 74-98): when `personalizedData` is
present, subject and html are personalized with the augmented map, text
only when the job carries text content; otherwise all three pass through
unchanged. -/
def lambdaContentFor (subject html : List Char) (text : Option (List Char))
    (r : Recipient) : List Char × List Char × Option (List Char) :=
  match r.personalizedData with
  | none => (subject, html, text)
  | some d =>
    (replaceTokens subject (augmentData d r),
     replaceTokens html (augmentData d r),
     text.map (fun t => replaceTokens t (augmentData d r)))

theorem chunkArray_nil (s : Nat) : chunkArray ([] : List α) s = [] := by
  unfold chunkArray
  split <;> rfl

theorem chunkArray_cons (x : α) (xs : List α) (s : Nat) (hs : s ≠ 0) :
    chunkArray (x :: xs) s =
      (x :: xs).take s :: chunkArray ((x :: xs).drop s) s := by
  rw [chunkArray]
  simp [hs]

theorem chunkArray_flatten (l : List α) (s : Nat) (hs : 0 < s) :
    (chunkArray l s).flatten = l := by
  have key : ∀ n (l : List α), l.length = n → (chunkArray l s).flatten = l := by
    intro n
    induction n using Nat.strong_induction_on with
    | _ n ih =>
      intro l hn
      match l with
      | [] => simp [chunkArray_nil]
      | x :: xs =>
        rw [chunkArray_cons x xs s (Nat.pos_iff_ne_zero.mp hs)]
        rw [List.flatten_cons]
        have hlt : ((x :: xs).drop s).length < n := by
          simp only [List.length_cons] at hn
          simp only [List.length_drop, List.length_cons]
          omega
        rw [ih _ hlt _ rfl]
        exact List.take_append_drop s (x :: xs)
  exact key l.length l rfl

theorem chunkArray_length (l : List α) (s : Nat) (hs : 0 < s) :
    (chunkArray l s).length = (l.length + s - 1) / s := by
  have key : ∀ n (l : List α), l.length = n →
      (chunkArray l s).length = (l.length + s - 1) / s := by
    intro n
    induction n using Nat.strong_induction_on with
    | _ n ih =>
      intro l hn
      match l with
      | [] =>
        simp only [chunkArray_nil, List.length_nil]
        rw [Nat.zero_add, Nat.div_eq_of_lt (by omega)]
      | x :: xs =>
        rw [chunkArray_cons x xs s (Nat.pos_iff_ne_zero.mp hs)]
        have hlen : (x :: xs).length = xs.length + 1 := by simp
        have hlt : ((x :: xs).drop s).length < n := by
          simp only [List.length_cons] at hn
          simp only [List.length_drop, List.length_cons]
          omega
        rw [List.length_cons, ih _ hlt _ rfl]
        simp only [List.length_drop, List.length_cons]
        rcases Nat.lt_or_ge (xs.length + 1) s with hcase | hcase
        · have h1 : xs.length + 1 - s = 0 := by omega
          rw [h1, Nat.zero_add]
          have h2 : (s - 1) / s = 0 := Nat.div_eq_of_lt (by omega)
          have h3 : (xs.length + 1 + s - 1) / s = 1 :=
            Nat.div_eq_of_lt_le (by omega) (by omega)
          omega
        · have h1 : xs.length + 1 - s + s - 1 = xs.length := by omega
          have h2 : xs.length + 1 + s - 1 = xs.length + s := by omega
          rw [h1, h2, Nat.add_div_right _ hs]
  exact key l.length l rfl

theorem chunkArray_mem_length_le (l : List α) (s : Nat) (hs : 0 < s) :
    ∀ c ∈ chunkArray l s, c.length ≤ s := by
  have key : ∀ n (l : List α), l.length = n → ∀ c ∈ chunkArray l s, c.length ≤ s := by
    intro n
    induction n using Nat.strong_induction_on with
    | _ n ih =>
      intro l hn
      match l with
      | [] => simp [chunkArray_nil]
      | x :: xs =>
        rw [chunkArray_cons x xs s (Nat.pos_iff_ne_zero.mp hs)]
        intro c hc
        rcases List.mem_cons.mp hc with h | h
        · subst h
          simp [List.length_take]
        · have hlt : ((x :: xs).drop s).length < n := by
            simp only [List.length_drop, List.length_cons] at *
            omega
          exact ih _ hlt _ rfl c h
  exact key l.length l rfl

theorem chunkArray_dropLast_length (l : List α) (s : Nat) (hs : 0 < s) :
    ∀ c ∈ (chunkArray l s).dropLast, c.length = s := by
  have key : ∀ n (l : List α), l.length = n →
      ∀ c ∈ (chunkArray l s).dropLast, c.length = s := by
    intro n
    induction n using Nat.strong_induction_on with
    | _ n ih =>
      intro l hn
      match l with
      | [] => simp [chunkArray_nil]
      | x :: xs =>
        rw [chunkArray_cons x xs s (Nat.pos_iff_ne_zero.mp hs)]
        intro c hc
        match hrest : chunkArray ((x :: xs).drop s) s with
        | [] => simp [hrest] at hc
        | r :: rs =>
          rw [hrest, List.dropLast_cons_of_ne_nil (by simp)] at hc
          rcases List.mem_cons.mp hc with h | h
          · subst h
            have hne : (x :: xs).drop s ≠ [] := by
              intro hd
              rw [hd, chunkArray_nil] at hrest
              exact absurd hrest (by simp)
            have : s < (x :: xs).length := by
              by_contra hcon
              refine hne (List.drop_eq_nil_of_le ?_)
              simp only [List.length_cons] at hcon ⊢
              omega
            simp only [List.length_take, List.length_cons]
            simp only [List.length_cons] at this
            omega
          · have hlt : ((x :: xs).drop s).length < n := by
              simp only [List.length_drop, List.length_cons] at *
              omega
            have := ih _ hlt _ rfl c
            rw [hrest] at this
            exact this h
  exact key l.length l rfl

theorem chunkArray_eq_nil_iff (l : List α) (s : Nat) (hs : 0 < s) :
    chunkArray l s = [] ↔ l = [] := by
  match l with
  | [] => simp [chunkArray_nil]
  | x :: xs =>
    rw [chunkArray_cons x xs s (Nat.pos_iff_ne_zero.mp hs)]
    simp

/-- C6: for every list of length N and chunk size S > 0, `chunkArray`
returns ⌈N/S⌉ chunks, all but possibly the last of length exactly S, whose
concatenation in order equals the original list; in particular the sum of
the chunk lengths is N. -/
theorem chunkArray_spec (l : List Nat) (s : Nat) (hs : 0 < s) :
    (chunkArray l s).length = (l.length + s - 1) / s ∧
    (∀ c ∈ (chunkArray l s).dropLast, c.length = s) ∧
    (chunkArray l s).flatten = l ∧
    ((chunkArray l s).map List.length).sum = l.length := by
  refine ⟨chunkArray_length l s hs, chunkArray_dropLast_length l s hs,
    chunkArray_flatten l s hs, ?_⟩
  have := chunkArray_flatten l s hs
  calc ((chunkArray l s).map List.length).sum
      = (chunkArray l s).flatten.length := (List.length_flatten _).symm
    _ = l.length := by rw [this]

/-- Witness for C6 at a concrete input: a 5-element list with chunk size 2
gives chunks [[1,2],[3,4],[5]]. -/
theorem chunkArray_spec_witness :
    (chunkArray [1, 2, 3, 4, 5] 2).length = (5 + 2 - 1) / 2 ∧
    (∀ c ∈ (chunkArray [1, 2, 3, 4, 5] 2).dropLast, c.length = 2) ∧
    (chunkArray [1, 2, 3, 4, 5] 2).flatten = [1, 2, 3, 4, 5] ∧
    ((chunkArray [1, 2, 3, 4, 5] 2).map List.length).sum = 5 := by
  have h := chunkArray_spec [1, 2, 3, 4, 5] 2 (by decide)
  simpa using h

theorem replaceAllL_nil (pat rep : List Char) : replaceAllL pat rep [] = [] := by
  rw [replaceAllL]

theorem replaceAllL_cons_pos (pat rep : List Char) (c : Char) (cs : List Char)
    (h1 : pat ≠ []) (h2 : pat.isPrefixOf (c :: cs)) :
    replaceAllL pat rep (c :: cs) =
      rep ++ replaceAllL pat rep ((c :: cs).drop pat.length) := by
  rw [replaceAllL]
  simp only [dif_pos (And.intro h1 h2)]

theorem replaceAllL_cons_neg (pat rep : List Char) (c : Char) (cs : List Char)
    (h : ¬(pat ≠ [] ∧ pat.isPrefixOf (c :: cs))) :
    replaceAllL pat rep (c :: cs) = c :: replaceAllL pat rep cs := by
  rw [replaceAllL]
  simp only [dif_neg h]

theorem splitOnL_nil (pat : List Char) : splitOnL pat [] = [[]] := by
  rw [splitOnL]

theorem splitOnL_cons_pos (pat : List Char) (c : Char) (cs : List Char)
    (h1 : pat ≠ []) (h2 : pat.isPrefixOf (c :: cs)) :
    splitOnL pat (c :: cs) = [] :: splitOnL pat ((c :: cs).drop pat.length) := by
  rw [splitOnL]
  simp only [dif_pos (And.intro h1 h2)]

theorem splitOnL_cons_neg (pat : List Char) (c : Char) (cs : List Char)
    (h : ¬(pat ≠ [] ∧ pat.isPrefixOf (c :: cs))) :
    splitOnL pat (c :: cs) =
      (c :: (splitOnL pat cs).headI) :: (splitOnL pat cs).tail := by
  rw [splitOnL]
  simp only [dif_neg h]

theorem splitOnL_ne_nil (pat s : List Char) : splitOnL pat s ≠ [] := by
  match s with
  | [] => simp [splitOnL_nil]
  | c :: cs =>
    by_cases h : pat ≠ [] ∧ pat.isPrefixOf (c :: cs)
    · rw [splitOnL_cons_pos pat c cs h.1 h.2]
      simp
    · rw [splitOnL_cons_neg pat c cs h]
      simp

theorem joinSep_cons_of_ne_nil (sep : List Char) (p : List Char)
    (ps : List (List Char)) (h : ps ≠ []) :
    joinSep sep (p :: ps) = p ++ sep ++ joinSep sep ps := by
  match ps with
  | [] => exact absurd rfl h
  | q :: ps' => rfl

theorem isPrefixOf_eq_append (p s : List Char) :
    p.isPrefixOf s = true ↔ ∃ t, s = p ++ t := by
  induction p generalizing s with
  | nil => simp [List.isPrefixOf]
  | cons a p ih =>
    match s with
    | [] => simp [List.isPrefixOf]
    | b :: s' =>
      simp only [List.isPrefixOf, Bool.and_eq_true, beq_iff_eq, ih,
        List.cons_append, List.cons.injEq]
      constructor
      · rintro ⟨hab, t, ht⟩
        exact ⟨t, hab.symm, ht⟩
      · rintro ⟨t, hab, ht⟩
        exact ⟨hab.symm, t, ht⟩

theorem containsTok_nil_eq_false (pat : List Char) (hpat : pat ≠ []) :
    containsTok pat [] = false := by
  match pat with
  | [] => exact absurd rfl hpat
  | a :: pat' => rfl

theorem headI_mem_of_ne_nil {α : Type} [Inhabited α] (l : List α) (h : l ≠ []) :
    l.headI ∈ l := by
  match l with
  | [] => exact absurd rfl h
  | x :: xs => simp

theorem splitOnL_headI_append (pat s : List Char) :
    ∃ u, s = (splitOnL pat s).headI ++ u := by
  have key : ∀ n (s : List Char), s.length = n →
      ∃ u, s = (splitOnL pat s).headI ++ u := by
    intro n
    induction n using Nat.strong_induction_on with
    | _ n ih =>
      intro s hn
      match s with
      | [] => exact ⟨[], by simp [splitOnL_nil]⟩
      | c :: cs =>
        by_cases h : pat ≠ [] ∧ pat.isPrefixOf (c :: cs)
        · rw [splitOnL_cons_pos pat c cs h.1 h.2]
          exact ⟨c :: cs, by simp⟩
        · rw [splitOnL_cons_neg pat c cs h]
          have hlt : cs.length < n := by
            simp only [List.length_cons] at hn
            omega
          obtain ⟨u, hu⟩ := ih _ hlt cs rfl
          refine ⟨u, ?_⟩
          rw [List.headI_cons, List.cons_append, ← hu]
  exact key s.length s rfl

theorem joinSep_splitOnL (pat s : List Char) (hpat : pat ≠ []) :
    joinSep pat (splitOnL pat s) = s := by
  have key : ∀ n (s : List Char), s.length = n →
      joinSep pat (splitOnL pat s) = s := by
    intro n
    induction n using Nat.strong_induction_on with
    | _ n ih =>
      intro s hn
      match s with
      | [] => simp [splitOnL_nil, joinSep]
      | c :: cs =>
        by_cases h : pat.isPrefixOf (c :: cs)
        · rw [splitOnL_cons_pos pat c cs hpat h]
          rw [joinSep_cons_of_ne_nil _ _ _ (splitOnL_ne_nil _ _)]
          have hdrop_lt : ((c :: cs).drop pat.length).length < n := by
            simp only [List.length_drop, List.length_cons] at hn ⊢
            have := List.length_pos.mpr hpat
            omega
          rw [ih _ hdrop_lt _ rfl]
          obtain ⟨t, ht⟩ := (isPrefixOf_eq_append pat (c :: cs)).mp h
          rw [List.nil_append, ht, List.drop_left]
        · have hneg : ¬(pat ≠ [] ∧ pat.isPrefixOf (c :: cs)) := fun hc => h hc.2
          rw [splitOnL_cons_neg pat c cs hneg]
          have hlt : cs.length < n := by
            simp only [List.length_cons] at hn
            omega
          have hIH := ih _ hlt cs rfl
          match hrec : splitOnL pat cs with
          | [] => exact absurd hrec (splitOnL_ne_nil _ _)
          | [p] =>
            rw [hrec] at hIH
            simp only [joinSep] at hIH
            simp only [hrec, List.headI_cons, List.tail_cons, joinSep, hIH]
          | p :: q :: ps =>
            rw [hrec] at hIH
            simp only [List.headI_cons, List.tail_cons]
            rw [joinSep_cons_of_ne_nil _ _ _ (by simp)] at hIH ⊢
            rw [List.cons_append, List.cons_append, hIH]
  exact key s.length s rfl

theorem splitOnL_parts_free (pat s : List Char) (hpat : pat ≠ []) :
    ∀ p ∈ splitOnL pat s, containsTok pat p = false := by
  have key : ∀ n (s : List Char), s.length = n →
      ∀ p ∈ splitOnL pat s, containsTok pat p = false := by
    intro n
    induction n using Nat.strong_induction_on with
    | _ n ih =>
      intro s hn
      match s with
      | [] =>
        intro p hp
        rw [splitOnL_nil, List.mem_singleton] at hp
        rw [hp]
        exact containsTok_nil_eq_false pat hpat
      | c :: cs =>
        by_cases h : pat.isPrefixOf (c :: cs)
        · rw [splitOnL_cons_pos pat c cs hpat h]
          intro p hp
          rcases List.mem_cons.mp hp with hcase | hcase
          · rw [hcase]
            exact containsTok_nil_eq_false pat hpat
          · have hdrop_lt : ((c :: cs).drop pat.length).length < n := by
              simp only [List.length_drop, List.length_cons] at hn ⊢
              have := List.length_pos.mpr hpat
              omega
            exact ih _ hdrop_lt _ rfl p hcase
        · have hneg : ¬(pat ≠ [] ∧ pat.isPrefixOf (c :: cs)) := fun hc => h hc.2
          rw [splitOnL_cons_neg pat c cs hneg]
          have hlt : cs.length < n := by
            simp only [List.length_cons] at hn
            omega
          have hIH := ih _ hlt cs rfl
          intro p hp
          rcases List.mem_cons.mp hp with hcase | hcase
          · rw [hcase]
            simp only [containsTok, Bool.or_eq_false_iff]
            constructor
            · by_contra hpre
              rw [Bool.not_eq_false] at hpre
              obtain ⟨u, hu⟩ := (isPrefixOf_eq_append pat _).mp hpre
              obtain ⟨w, hw⟩ := splitOnL_headI_append pat cs
              have : c :: cs = pat ++ (u ++ w) := by
                rw [hw, ← List.append_assoc, ← hu, ← List.cons_append]
              exact h ((isPrefixOf_eq_append pat (c :: cs)).mpr ⟨u ++ w, this⟩)
            · exact hIH _ (headI_mem_of_ne_nil _ (splitOnL_ne_nil pat cs))
          · exact hIH _ (List.mem_of_mem_tail hcase)
  exact key s.length s rfl

theorem replaceAllL_eq_joinSep (pat rep s : List Char) (hpat : pat ≠ []) :
    replaceAllL pat rep s = joinSep rep (splitOnL pat s) := by
  have key : ∀ n (s : List Char), s.length = n →
      replaceAllL pat rep s = joinSep rep (splitOnL pat s) := by
    intro n
    induction n using Nat.strong_induction_on with
    | _ n ih =>
      intro s hn
      match s with
      | [] => simp [replaceAllL_nil, splitOnL_nil, joinSep]
      | c :: cs =>
        by_cases h : pat.isPrefixOf (c :: cs)
        · rw [replaceAllL_cons_pos pat rep c cs hpat h,
            splitOnL_cons_pos pat c cs hpat h,
            joinSep_cons_of_ne_nil _ _ _ (splitOnL_ne_nil _ _)]
          have hdrop_lt : ((c :: cs).drop pat.length).length < n := by
            simp only [List.length_drop, List.length_cons] at hn ⊢
            have := List.length_pos.mpr hpat
            omega
          rw [ih _ hdrop_lt _ rfl, List.nil_append]
        · have hneg : ¬(pat ≠ [] ∧ pat.isPrefixOf (c :: cs)) := fun hc => h hc.2
          rw [replaceAllL_cons_neg pat rep c cs hneg,
            splitOnL_cons_neg pat c cs hneg]
          have hlt : cs.length < n := by
            simp only [List.length_cons] at hn
            omega
          have hIH := ih _ hlt cs rfl
          match hrec : splitOnL pat cs with
          | [] => exact absurd hrec (splitOnL_ne_nil _ _)
          | [p] =>
            rw [hrec] at hIH
            simp only [joinSep] at hIH
            simp only [hrec, List.headI_cons, List.tail_cons, joinSep, hIH]
          | p :: q :: ps =>
            rw [hrec] at hIH
            simp only [List.headI_cons, List.tail_cons]
            rw [joinSep_cons_of_ne_nil _ _ _ (by simp)] at hIH ⊢
            rw [List.cons_append, List.cons_append, hIH]
  exact key s.length s rfl

theorem replaceAllL_id_of_not_contains (pat rep s : List Char)
    (hs : containsTok pat s = false) : replaceAllL pat rep s = s := by
  induction s with
  | nil => exact replaceAllL_nil pat rep
  | cons c cs ih =>
    simp only [containsTok, Bool.or_eq_false_iff] at hs
    rw [replaceAllL_cons_neg pat rep c cs (by simp [hs.1])]
    rw [ih hs.2]

theorem mkToken_ne_nil (key : List Char) : mkToken key ≠ [] := by
  simp [mkToken]

/-- C5 counterexample: for the falsy (but neither undefined nor null) value
`false` under key `flag`, the code substitutes the empty string where the
claim's `String(value)` rule would substitute `"false"`: at the concrete
content whose subject is the token itself, code and claim disagree. -/
theorem personalizeContent_falsy_counterexample :
    personalizeContent ⟨mkToken "flag".toList, [], []⟩
        [("flag".toList, JSValue.vBool false)] ≠
      personalizeContentSpec ⟨mkToken "flag".toList, [], []⟩
        [("flag".toList, JSValue.vBool false)] ∧
    (personalizeContent ⟨mkToken "flag".toList, [], []⟩
        [("flag".toList, JSValue.vBool false)]).subject = [] ∧
    (personalizeContentSpec ⟨mkToken "flag".toList, [], []⟩
        [("flag".toList, JSValue.vBool false)]).subject = "false".toList := by
  have h1 : (personalizeContent ⟨mkToken "flag".toList, [], []⟩
      [("flag".toList, JSValue.vBool false)]).subject = [] := by
    simp [personalizeContent, replaceTokens, replaceAllL, mkToken, substVal, jsTruthy]
  have h2 : (personalizeContentSpec ⟨mkToken "flag".toList, [], []⟩
      [("flag".toList, JSValue.vBool false)]).subject = "false".toList := by
    simp [personalizeContentSpec, replaceTokensSpec, replaceAllL, mkToken,
      substValSpec, jsString]
  refine ⟨?_, h1, h2⟩
  intro hcon
  rw [hcon] at h1
  exact absurd (h2.symm.trans h1) (by simp)

/-- C5 (amended): `personalizeContent` returns a fresh content value whose
subject/html/text each arise by folding over the data map in order; for a
key, the replacement rewrites exactly the leftmost non-overlapping literal
occurrences of the token — the split pieces reassemble to the original with
the token and contain no further occurrence — substituting
`String(value || '')` (every falsy value becomes the empty string, not only
undefined/null); a key whose token does not occur leaves the string
unchanged. -/
theorem personalizeContent_token_replacement (key : List Char) (v : JSValue)
    (c : EmailContent) (data : List (List Char × JSValue)) :
    personalizeContent c data =
      ⟨replaceTokens c.subject data, replaceTokens c.html data,
        replaceTokens c.text data⟩ ∧
    (personalizeContent c [(key, v)]).subject =
      joinSep (substVal v) (splitOnL (mkToken key) c.subject) ∧
    joinSep (mkToken key) (splitOnL (mkToken key) c.subject) = c.subject ∧
    (∀ p ∈ splitOnL (mkToken key) c.subject,
      containsTok (mkToken key) p = false) ∧
    (containsTok (mkToken key) c.subject = false →
      (personalizeContent c [(key, v)]).subject = c.subject) := by
  refine ⟨rfl, ?_, ?_, ?_, ?_⟩
  · show replaceAllL (mkToken key) (substVal v) c.subject = _
    exact replaceAllL_eq_joinSep _ _ _ (mkToken_ne_nil key)
  · exact joinSep_splitOnL _ _ (mkToken_ne_nil key)
  · exact splitOnL_parts_free _ _ (mkToken_ne_nil key)
  · intro hfree
    show replaceAllL (mkToken key) (substVal v) c.subject = c.subject
    exact replaceAllL_id_of_not_contains _ _ _ hfree

/-- Witness for C5 at concrete inputs: `"Hi \x7b\x7bname\x7d\x7d"` with
`name = "Ann"` becomes `"Hi Ann"`, and a subject without the token is left
unchanged (discharging the theorem's conditional conjunct concretely). -/
theorem personalizeContent_token_replacement_witness :
    (personalizeContent ⟨"Hi ".toList ++ mkToken "name".toList, [], []⟩
        [("name".toList, JSValue.vStr "Ann".toList)]).subject = "Hi Ann".toList ∧
    (personalizeContent ⟨"Hello".toList, [], []⟩
        [("name".toList, JSValue.vStr "Ann".toList)]).subject = "Hello".toList := by
  constructor
  · simp [personalizeContent, replaceTokens, replaceAllL, mkToken, substVal,
      jsTruthy, jsString]
  · exact (personalizeContent_token_replacement "name".toList
      (JSValue.vStr "Ann".toList) ⟨"Hello".toList, [], []⟩ []).2.2.2.2
      (by simp [containsTok, mkToken, List.isPrefixOf])

theorem sendLoop_results (cfg : BulkEmailConfig) (opts : BulkOptions)
    (env : ImmediateEnv) (base : EmailContent) (rs : List Recipient) :
    (sendLoop cfg opts env base rs).1 = rs.map (entryFor cfg opts env base) ∧
    (sendLoop cfg opts env base rs).2.1 + (sendLoop cfg opts env base rs).2.2
      = rs.length := by
  induction rs with
  | nil => simp [sendLoop]
  | cons r rs ih =>
    refine ⟨by simp [sendLoop, ih.1], ?_⟩
    have h2 := ih.2
    by_cases h : (entryFor cfg opts env base r).success <;>
      simp [sendLoop, h] <;> omega

theorem bounceFilter_spec (env : ImmediateEnv) (rs : List Recipient) :
    (bounceFilter env rs).1 = rs.filter (fun r => !isSuppressed env r) ∧
    (bounceFilter env rs).2 = (rs.filter (fun r => isSuppressed env r)).map
      (fun r => ⟨false, some bouncedErrorMsg, r.email⟩) := by
  induction rs with
  | nil => simp [bounceFilter]
  | cons r rs ih =>
    by_cases h : isSuppressed env r <;>
      simp [bounceFilter, h, ih.1, ih.2, List.filter_cons]

theorem bounceFilter_length (env : ImmediateEnv) (rs : List Recipient) :
    (bounceFilter env rs).1.length + (bounceFilter env rs).2.length = rs.length := by
  induction rs with
  | nil => simp [bounceFilter]
  | cons r rs ih =>
    by_cases h : isSuppressed env r <;> simp [bounceFilter, h] <;> omega

theorem aggregateStatus_spec (fc len : Nat) :
    (aggregateStatus fc len = .failed ↔ fc = len ∧ 0 < len) ∧
    (aggregateStatus fc len = .completed ↔ fc = 0) ∧
    (aggregateStatus fc len = .mixed ↔ fc ≠ 0 ∧ fc ≠ len) := by
  unfold aggregateStatus
  refine ⟨⟨?_, ?_⟩, ⟨?_, ?_⟩, ⟨?_, ?_⟩⟩
  · intro h
    by_cases h0 : fc = 0
    · rw [if_pos h0] at h
      exact absurd h (by simp)
    · rw [if_neg h0] at h
      by_cases hl : fc = len
      · exact ⟨hl, by omega⟩
      · rw [if_neg hl] at h
        exact absurd h (by simp)
  · rintro ⟨hl, hp⟩
    have h0 : fc ≠ 0 := by omega
    rw [if_neg h0, if_pos hl]
  · intro h
    by_cases h0 : fc = 0
    · exact h0
    · rw [if_neg h0] at h
      by_cases hl : fc = len
      · rw [if_pos hl] at h
        exact absurd h (by simp)
      · rw [if_neg hl] at h
        exact absurd h (by simp)
  · intro h0
    rw [if_pos h0]
  · intro h
    by_cases h0 : fc = 0
    · rw [if_pos h0] at h
      exact absurd h (by simp)
    · by_cases hl : fc = len
      · rw [if_neg h0, if_pos hl] at h
        exact absurd h (by simp)
      · exact ⟨h0, hl⟩
  · rintro ⟨h0, hl⟩
    rw [if_neg h0, if_neg hl]

theorem processImmediately_results_eq (cfg : BulkEmailConfig) (opts : BulkOptions)
    (env : ImmediateEnv) (jobId : List Char) (recipients : List Recipient)
    (base : EmailContent) :
    (processImmediately cfg opts env jobId recipients base).results =
      (if cfg.hasBounceTracker then bounceFilter env recipients
        else (recipients, [])).2 ++
      ((if cfg.hasBounceTracker then bounceFilter env recipients
        else (recipients, [])).1.map (entryFor cfg opts env base)) := by
  unfold processImmediately
  cases cfg.hasBounceTracker <;>
    simp [(sendLoop_results cfg opts env base _).1]

theorem chunkArray_ne_nil_of_arg_ne_nil (l : List α) (s : Nat)
    (h : chunkArray l s ≠ []) : l ≠ [] := by
  intro hl
  exact h (hl ▸ chunkArray_nil s)

/-- C1 counterexample: with no queue transport configured, `forceQueue=true`
takes the immediate path, while the claim's ordered rule (first clause:
`forceQueue` → queue, unconditionally) selects the queued path; concretely
at 100 recipients against the default threshold 50. -/
theorem selectStrategy_forceQueue_counterexample :
    selectStrategy ⟨false, false, "noreply@kx.io".toList, 50, 10⟩
        ⟨true, false, 0, none, none⟩ 100 = .immediate ∧
    selectStrategySpec ⟨false, false, "noreply@kx.io".toList, 50, 10⟩
        ⟨true, false, 0, none, none⟩ 100 = .queued := by
  exact ⟨rfl, rfl⟩

/-- C1 (amended): when a queue transport is configured the dispatch agrees
exactly with the spec's ordered rule (so `forceQueue=true` then always
yields the queued path regardless of count); with no queue transport
configured, the immediate path is always taken, even under `forceQueue` or
`scheduledFor`; the immediate threshold defaults to 50. -/
theorem selectStrategy_rule (cfg : BulkEmailConfig) (opts : BulkOptions) (n : Nat) :
    (cfg.hasQueueTransport = true →
      selectStrategy cfg opts n = selectStrategySpec cfg opts n) ∧
    (cfg.hasQueueTransport = true → opts.forceQueue = true →
      selectStrategy cfg opts n = .queued) ∧
    (cfg.hasQueueTransport = false → selectStrategy cfg opts n = .immediate) ∧
    (∀ b1 b2 f, (mkBulkEmailConfig b1 b2 f).maxImmediateBatchSize = 50) := by
  refine ⟨?_, ?_, ?_, fun _ _ _ => rfl⟩
  · intro hq
    cases hf : opts.forceQueue <;> cases hsch : opts.hasScheduledFor <;>
      cases hgt : decide (n > cfg.maxImmediateBatchSize) <;>
        simp [selectStrategy, selectStrategySpec, shouldQueue, hq, hf, hsch, hgt]
  · intro hq hf
    simp [selectStrategy, shouldQueue, hq, hf]
  · intro hq
    simp [selectStrategy, shouldQueue, hq]

/-- Witness for C1's amended rule at concrete inputs: transport + force with
2 recipients goes to the queue; no transport with a schedule goes immediate. -/
theorem selectStrategy_rule_witness :
    selectStrategy ⟨true, false, "a@b.co".toList, 50, 10⟩
        ⟨true, false, 0, none, none⟩ 2 = .queued ∧
    selectStrategy ⟨false, false, "a@b.co".toList, 50, 10⟩
        ⟨false, true, 0, none, none⟩ 2 = .immediate := by
  constructor
  · exact (selectStrategy_rule ⟨true, false, "a@b.co".toList, 50, 10⟩
      ⟨true, false, 0, none, none⟩ 2).2.1 rfl rfl
  · exact (selectStrategy_rule ⟨false, false, "a@b.co".toList, 50, 10⟩
      ⟨false, true, 0, none, none⟩ 2).2.2.1 rfl

/-- C2 counterexample: `forceQueue=true` with no queue transport — the
claim's rule selects the queued path and demands a fail-fast
ConfigurationError before any send attempt, but the call returns `.ok` with
the immediate path's output: the one recipient was actually sent
(successCount 1, status completed), a silent fallback. -/
theorem sendBulkEmails_silent_fallback_counterexample :
    selectStrategySpec ⟨false, false, "noreply@kx.io".toList, 50, 10⟩
        ⟨true, false, 0, none, none⟩ 1 = .queued ∧
    sendBulkEmails ⟨false, false, "noreply@kx.io".toList, 50, 10⟩
        ⟨true, false, 0, none, none⟩
        ⟨fun _ => .fulfilled false, fun m => .ok ⟨true, none, m.toAddr⟩⟩
        (fun _ => none) "job-1".toList
        [⟨"a@b.co".toList, none, none⟩] ⟨"s".toList, "h".toList, "t".toList⟩
      = .ok ⟨"job-1".toList, 1, 1, 0, [⟨true, none, "a@b.co".toList⟩],
          .completed⟩ := by
  exact ⟨rfl, rfl⟩

/-- C2 (amended): when no queue transport is configured, `sendBulkEmails`
silently falls back to immediate processing for every input — including
those where the spec's rule selects the queued strategy — and never
surfaces the configuration error; that error exists only inside
`queueBulkEmailJob`, which `sendBulkEmails` never reaches without a
transport; consequently `sendBulkEmails` always returns `.ok`. -/
theorem sendBulkEmails_fallback (cfg : BulkEmailConfig) (opts : BulkOptions)
    (env : ImmediateEnv) (enq : Nat → Option (List Char)) (jobId : List Char)
    (recipients : List Recipient) (content : EmailContent) :
    (cfg.hasQueueTransport = false →
      sendBulkEmails cfg opts env enq jobId recipients content =
        .ok (processImmediately cfg opts env jobId recipients content)) ∧
    (cfg.hasQueueTransport = false →
      queueBulkEmailJob cfg opts enq jobId recipients =
        .error "SQS client or queue URL not configured for bulk processing".toList) ∧
    (∃ res, sendBulkEmails cfg opts env enq jobId recipients content = .ok res) := by
  refine ⟨?_, ?_, ?_⟩
  · intro hq
    simp [sendBulkEmails, hq]
  · intro hq
    simp [queueBulkEmailJob, hq]
  · unfold sendBulkEmails
    split
    · rename_i hcond
      simp only [Bool.and_eq_true] at hcond
      have hq : cfg.hasQueueTransport = true := hcond.2
      unfold queueBulkEmailJob
      rw [hq]
      simp only [Bool.true_eq_false, if_false]
      split <;> exact ⟨_, rfl⟩
    · exact ⟨_, rfl⟩

/-- Witness for C2's amended statement: concrete no-transport call with
`forceQueue=true` returns the immediate result, and the direct
`queueBulkEmailJob` call throws the configuration error. -/
theorem sendBulkEmails_fallback_witness :
    sendBulkEmails ⟨false, false, "noreply@kx.io".toList, 50, 10⟩
        ⟨true, false, 0, none, none⟩
        ⟨fun _ => .fulfilled false, fun m => .ok ⟨true, none, m.toAddr⟩⟩
        (fun _ => none) "job-2".toList [] ⟨[], [], []⟩
      = .ok (processImmediately ⟨false, false, "noreply@kx.io".toList, 50, 10⟩
          ⟨true, false, 0, none, none⟩
          ⟨fun _ => .fulfilled false, fun m => .ok ⟨true, none, m.toAddr⟩⟩
          "job-2".toList [] ⟨[], [], []⟩) ∧
    queueBulkEmailJob ⟨false, false, "noreply@kx.io".toList, 50, 10⟩
        ⟨true, false, 0, none, none⟩ (fun _ => none) "job-2".toList []
      = .error "SQS client or queue URL not configured for bulk processing".toList := by
  constructor
  · exact (sendBulkEmails_fallback ⟨false, false, "noreply@kx.io".toList, 50, 10⟩
      ⟨true, false, 0, none, none⟩
      ⟨fun _ => .fulfilled false, fun m => .ok ⟨true, none, m.toAddr⟩⟩
      (fun _ => none) "job-2".toList [] ⟨[], [], []⟩).1 rfl
  · exact (sendBulkEmails_fallback ⟨false, false, "noreply@kx.io".toList, 50, 10⟩
      ⟨true, false, 0, none, none⟩
      ⟨fun _ => .fulfilled false, fun m => .ok ⟨true, none, m.toAddr⟩⟩
      (fun _ => none) "job-2".toList [] ⟨[], [], []⟩).2.1 rfl

theorem processImmediately_counts (cfg : BulkEmailConfig) (opts : BulkOptions)
    (env : ImmediateEnv) (jobId : List Char) (recipients : List Recipient)
    (base : EmailContent) :
    (processImmediately cfg opts env jobId recipients base).successCount +
      (processImmediately cfg opts env jobId recipients base).failureCount =
      (processImmediately cfg opts env jobId recipients base).results.length ∧
    (processImmediately cfg opts env jobId recipients base).status =
      aggregateStatus
        (processImmediately cfg opts env jobId recipients base).failureCount
        (processImmediately cfg opts env jobId recipients base).results.length := by
  unfold processImmediately
  refine ⟨?_, rfl⟩
  have h1 := (sendLoop_results cfg opts env base
    (if cfg.hasBounceTracker then bounceFilter env recipients
      else (recipients, [])).1).2
  have h2 := congrArg List.length (sendLoop_results cfg opts env base
    (if cfg.hasBounceTracker then bounceFilter env recipients
      else (recipients, [])).1).1
  simp only [List.length_map] at h2
  simp only [List.length_append]
  omega

/-- C3: every `BulkEmailResult` returned by `sendBulkEmails` — immediate or
queued path, any collaborator outcomes — satisfies `successCount +
failureCount = results.length`; `status = failed` iff `failureCount =
results.length` with nonempty results; `status = completed` iff
`failureCount = 0`; and the partial status (`mixed`) exactly otherwise. -/
theorem sendBulkEmails_invariant (cfg : BulkEmailConfig) (opts : BulkOptions)
    (env : ImmediateEnv) (enq : Nat → Option (List Char)) (jobId : List Char)
    (recipients : List Recipient) (content : EmailContent) (res : BulkEmailResult)
    (hres : sendBulkEmails cfg opts env enq jobId recipients content = .ok res) :
    res.successCount + res.failureCount = res.results.length ∧
    (res.status = .failed ↔
      res.failureCount = res.results.length ∧ 0 < res.results.length) ∧
    (res.status = .completed ↔ res.failureCount = 0) ∧
    (res.status = .mixed ↔
      res.failureCount ≠ 0 ∧ res.failureCount ≠ res.results.length) := by
  unfold sendBulkEmails at hres
  split at hres
  · -- queue path
    rename_i hcond
    simp only [Bool.and_eq_true] at hcond
    unfold queueBulkEmailJob at hres
    rw [hcond.2] at hres
    rw [if_neg (by simp)] at hres
    dsimp only at hres
    revert hres
    generalize (if opts.chunkSize = 0 then cfg.defaultChunkSize else opts.chunkSize) = cs
    intro hres
    split at hres
    · -- all submissions succeeded
      simp only [Except.ok.injEq] at hres
      subst hres
      refine ⟨rfl, by simp, by simp, by simp⟩
    · -- some submission rejected
      rename_i m heq
      simp only [Except.ok.injEq] at hres
      subst hres
      have hne : recipients ≠ [] := by
        apply chunkArray_ne_nil_of_arg_ne_nil recipients cs
        intro hnil
        rw [hnil] at heq
        simp at heq
      have hpos : 0 < recipients.length := List.length_pos.mpr hne
      refine ⟨by simp, ?_, ?_, ?_⟩
      · simp only [List.length_map]
        simp [hpos]
      · simp only [List.length_map]
        constructor
        · intro h
          exact absurd h (by simp)
        · intro h
          omega
      · simp only [List.length_map]
        constructor
        · intro h
          exact absurd h (by simp)
        · rintro ⟨-, h⟩
          exact absurd rfl h
  · -- immediate path
    simp only [Except.ok.injEq] at hres
    subst hres
    obtain ⟨hsum, hstat⟩ :=
      processImmediately_counts cfg opts env jobId recipients content
    refine ⟨hsum, ?_, ?_, ?_⟩ <;> rw [hstat]
    · exact (aggregateStatus_spec _ _).1
    · exact (aggregateStatus_spec _ _).2.1
    · exact (aggregateStatus_spec _ _).2.2

/-- Witness for C3 at a concrete call: one recipient whose send succeeds —
the invariant instantiated at the returned result. -/
theorem sendBulkEmails_invariant_witness :
    (1 + 0 = 1 ∧
      ((JobStatus.completed = .failed) ↔ (0 = 1 ∧ 0 < 1)) ∧
      ((JobStatus.completed = .completed) ↔ (0 = 0)) ∧
      ((JobStatus.completed = .mixed) ↔ (0 ≠ 0 ∧ 0 ≠ 1))) := by
  have h := sendBulkEmails_invariant
    ⟨false, false, "noreply@kx.io".toList, 50, 10⟩
    ⟨false, false, 0, none, none⟩
    ⟨fun _ => .fulfilled false, fun m => .ok ⟨true, none, m.toAddr⟩⟩
    (fun _ => none) "job-3".toList
    [⟨"a@b.co".toList, none, none⟩] ⟨"s".toList, "h".toList, "t".toList⟩
    ⟨"job-3".toList, 1, 1, 0, [⟨true, none, "a@b.co".toList⟩], .completed⟩
    rfl
  exact h

/-- C4: `hasEmailBounced` classifies bounced iff the most-recent record is
hard or complaint, or soft and younger than 24 hours; no record or a failed
lookup classifies not bounced (fail open — also at the `allSettled` layer
where a rejected check keeps the recipient active); in the immediate path
each suppressed recipient yields exactly the synthetic failure result
`"Email address has previously bounced"` and is excluded from the send
loop, whose results cover exactly the active recipients. -/
theorem hasEmailBounced_suppression
    (store : List Char → Except Unit (List BounceItem)) (now : Int)
    (send : EmailMessage → Except (List Char) EmailResult)
    (cfg : BulkEmailConfig) (opts : BulkOptions) (jobId : List Char)
    (recipients : List Recipient) (base : EmailContent)
    (hb : cfg.hasBounceTracker = true) :
    (∀ q, hasEmailBounced q now = true ↔
      ∃ latest rest, q = .ok (latest :: rest) ∧
        (latest.bounceType = .hard ∨ latest.bounceType = .complaint ∨
          (latest.bounceType = .soft ∧ now - latest.timestamp < msPerDay))) ∧
    hasEmailBounced (.error ()) now = false ∧
    hasEmailBounced (.ok []) now = false ∧
    (∀ (env' : ImmediateEnv) (r : Recipient),
      env'.bounce r.email = .rejected → isSuppressed env' r = false) ∧
    (bounceFilter ⟨fun e => .fulfilled (hasEmailBounced (store e) now), send⟩
        recipients).1 =
      recipients.filter (fun r => !hasEmailBounced (store r.email) now) ∧
    (bounceFilter ⟨fun e => .fulfilled (hasEmailBounced (store e) now), send⟩
        recipients).2 =
      (recipients.filter (fun r => hasEmailBounced (store r.email) now)).map
        (fun r => ⟨false, some bouncedErrorMsg, r.email⟩) ∧
    (processImmediately cfg opts
        ⟨fun e => .fulfilled (hasEmailBounced (store e) now), send⟩
        jobId recipients base).results =
      (recipients.filter (fun r => hasEmailBounced (store r.email) now)).map
        (fun r => ⟨false, some bouncedErrorMsg, r.email⟩) ++
      (recipients.filter (fun r => !hasEmailBounced (store r.email) now)).map
        (entryFor cfg opts
          ⟨fun e => .fulfilled (hasEmailBounced (store e) now), send⟩ base) := by
  have hact : (bounceFilter
      ⟨fun e => .fulfilled (hasEmailBounced (store e) now), send⟩ recipients).1 =
      recipients.filter (fun r => !hasEmailBounced (store r.email) now) := by
    rw [(bounceFilter_spec _ recipients).1]
    rfl
  have hsupp : (bounceFilter
      ⟨fun e => .fulfilled (hasEmailBounced (store e) now), send⟩ recipients).2 =
      (recipients.filter (fun r => hasEmailBounced (store r.email) now)).map
        (fun r => ⟨false, some bouncedErrorMsg, r.email⟩) := by
    rw [(bounceFilter_spec _ recipients).2]
    rfl
  refine ⟨?_, rfl, rfl, ?_, hact, hsupp, ?_⟩
  · intro q
    match q with
    | .error u => simp [hasEmailBounced]
    | .ok [] => simp [hasEmailBounced]
    | .ok (latest :: rest) =>
      simp only [hasEmailBounced]
      constructor
      · intro h
        refine ⟨latest, rest, rfl, ?_⟩
        by_cases h1 : latest.bounceType = .hard ∨ latest.bounceType = .complaint
        · rcases h1 with h1 | h1
          · exact Or.inl h1
          · exact Or.inr (Or.inl h1)
        · rw [if_neg h1] at h
          by_cases h2 : latest.bounceType = .soft
          · rw [if_pos h2] at h
            exact Or.inr (Or.inr ⟨h2, of_decide_eq_true h⟩)
          · rw [if_neg h2] at h
            exact absurd h (by simp)
      · rintro ⟨latest', rest', heq, hdisj⟩
        injection heq with h
        injection h with ha hb2
        rw [← ha] at hdisj
        rcases hdisj with h | h | ⟨h, ht⟩
        · rw [if_pos (Or.inl h)]
        · rw [if_pos (Or.inr h)]
        · have hnothard :
              ¬(latest.bounceType = .hard ∨ latest.bounceType = .complaint) := by
            rintro (hc | hc) <;> rw [h] at hc <;> exact absurd hc (by simp)
          rw [if_neg hnothard, if_pos h]
          exact decide_eq_true ht
  · intro env' r hr
    unfold isSuppressed
    rw [hr]
  · rw [processImmediately_results_eq, hb]
    rw [if_pos rfl, hact, hsupp]

/-- Witness for C4 at concrete lookups: a hard record suppresses, a failed
lookup does not. -/
theorem hasEmailBounced_suppression_witness :
    hasEmailBounced (.ok [⟨.hard, 0⟩]) 5 = true ∧
    hasEmailBounced (.error ()) 5 = false := by
  have h := hasEmailBounced_suppression (fun _ => .ok []) 5
    (fun m => .ok ⟨true, none, m.toAddr⟩)
    ⟨false, true, "f@g.co".toList, 50, 10⟩ ⟨false, false, 0, none, none⟩
    "j".toList [] ⟨[], [], []⟩ rfl
  exact ⟨(h.1 (.ok [⟨.hard, 0⟩])).mpr ⟨⟨.hard, 0⟩, [], rfl, Or.inl rfl⟩, h.2.1⟩

/-- C9: the immediate path records per-recipient failures as data and the
loop continues: for any send oracle (including one that always throws),
exactly one result is produced per recipient; with no bounce tracker the
results are exactly the per-recipient entries, in order; a send that throws
message `m` contributes the entry `{success: false, error: m,
recipient: r.email}`. -/
theorem processImmediately_per_recipient (cfg : BulkEmailConfig)
    (opts : BulkOptions) (env : ImmediateEnv) (jobId : List Char)
    (recipients : List Recipient) (base : EmailContent) :
    (processImmediately cfg opts env jobId recipients base).results.length
      = recipients.length ∧
    (cfg.hasBounceTracker = false →
      (processImmediately cfg opts env jobId recipients base).results
        = recipients.map (entryFor cfg opts env base)) ∧
    (∀ r m, env.send (buildMessage cfg opts base r) = .error m →
      entryFor cfg opts env base r = ⟨false, some m, r.email⟩) := by
  refine ⟨?_, ?_, ?_⟩
  · rw [processImmediately_results_eq]
    cases hb : cfg.hasBounceTracker
    · simp
    · rw [if_pos rfl]
      simp only [List.length_append, List.length_map]
      have := bounceFilter_length env recipients
      omega
  · intro hb
    rw [processImmediately_results_eq, hb]
    simp
  · intro r m hm
    unfold entryFor
    rw [hm]

/-- Witness for C9: two recipients against a send oracle that always
throws — both failure entries are recorded, in order. -/
theorem processImmediately_per_recipient_witness :
    (processImmediately ⟨false, false, "f@g.co".toList, 50, 10⟩
        ⟨false, false, 0, none, none⟩
        ⟨fun _ => .fulfilled false, fun _ => .error "boom".toList⟩
        "j".toList
        [⟨"a@b.co".toList, none, none⟩, ⟨"c@d.co".toList, none, none⟩]
        ⟨[], [], []⟩).results
      = [⟨false, some "boom".toList, "a@b.co".toList⟩,
         ⟨false, some "boom".toList, "c@d.co".toList⟩] := by
  rw [(processImmediately_per_recipient ⟨false, false, "f@g.co".toList, 50, 10⟩
    ⟨false, false, 0, none, none⟩
    ⟨fun _ => .fulfilled false, fun _ => .error "boom".toList⟩
    "j".toList
    [⟨"a@b.co".toList, none, none⟩, ⟨"c@d.co".toList, none, none⟩]
    ⟨[], [], []⟩).2.1 rfl]
  rfl

/-- C7: if any chunk submission is rejected (oracle yields `some m` on some
chunk index), the queued path reports an all-or-nothing failure: one
failure entry per recipient across all chunks with the transport error
appended to `"Failed to queue: "`, successCount 0, failureCount equal to
the total recipient count, status failed. -/
theorem queueBulkEmailJob_all_or_nothing (cfg : BulkEmailConfig)
    (opts : BulkOptions) (enq : Nat → Option (List Char)) (jobId : List Char)
    (recipients : List Recipient) (m : List Char)
    (hq : cfg.hasQueueTransport = true)
    (hm : (List.range (chunkArray recipients
        (if opts.chunkSize = 0 then cfg.defaultChunkSize
          else opts.chunkSize)).length).findSome? enq = some m) :
    queueBulkEmailJob cfg opts enq jobId recipients =
      .ok ⟨jobId, recipients.length, 0, recipients.length,
        recipients.map (fun r => ⟨false, some (failedToQueueMsg m), r.email⟩),
        .failed⟩ ∧
    failedToQueueMsg m = "Failed to queue: ".toList ++ m := by
  refine ⟨?_, rfl⟩
  unfold queueBulkEmailJob
  rw [hq, if_neg (by simp)]
  dsimp only
  rw [hm]

/-- Witness for C7: one recipient, chunk size 1, a transport that rejects
every submission. -/
theorem queueBulkEmailJob_all_or_nothing_witness :
    queueBulkEmailJob ⟨true, false, "f@g.co".toList, 50, 10⟩
        ⟨false, false, 1, none, none⟩
        (fun _ => some "SQS unavailable".toList) "j".toList
        [⟨"a@b.co".toList, none, none⟩] =
      .ok ⟨"j".toList, 1, 0, 1,
        [⟨false, some (failedToQueueMsg "SQS unavailable".toList),
          "a@b.co".toList⟩], .failed⟩ := by
  have h := (queueBulkEmailJob_all_or_nothing
    ⟨true, false, "f@g.co".toList, 50, 10⟩ ⟨false, false, 1, none, none⟩
    (fun _ => some "SQS unavailable".toList) "j".toList
    [⟨"a@b.co".toList, none, none⟩] "SQS unavailable".toList rfl
    (by simp [chunkArray, List.findSome?])).1
  simpa using h

/-- C8: if every chunk submission succeeds, the queued path returns
successCount 0, failureCount 0, no results, status completed (enqueue
semantics), for every recipient list and chunk size. -/
theorem queueBulkEmailJob_enqueue_completed (cfg : BulkEmailConfig)
    (opts : BulkOptions) (enq : Nat → Option (List Char)) (jobId : List Char)
    (recipients : List Recipient)
    (hq : cfg.hasQueueTransport = true)
    (hall : (List.range (chunkArray recipients
        (if opts.chunkSize = 0 then cfg.defaultChunkSize
          else opts.chunkSize)).length).findSome? enq = none) :
    queueBulkEmailJob cfg opts enq jobId recipients =
      .ok ⟨jobId, recipients.length, 0, 0, [], .completed⟩ := by
  unfold queueBulkEmailJob
  rw [hq, if_neg (by simp)]
  dsimp only
  rw [hall]

/-- Witness for C8: three recipients in chunks of two, all submissions
succeed. -/
theorem queueBulkEmailJob_enqueue_completed_witness :
    queueBulkEmailJob ⟨true, false, "f@g.co".toList, 50, 10⟩
        ⟨false, false, 2, none, none⟩ (fun _ => none) "j".toList
        [⟨"a@b.co".toList, none, none⟩, ⟨"c@d.co".toList, none, none⟩,
         ⟨"e@f.co".toList, none, none⟩] =
      .ok ⟨"j".toList, 3, 0, 0, [], .completed⟩ := by
  exact queueBulkEmailJob_enqueue_completed
    ⟨true, false, "f@g.co".toList, 50, 10⟩ ⟨false, false, 2, none, none⟩
    (fun _ => none) "j".toList
    [⟨"a@b.co".toList, none, none⟩, ⟨"c@d.co".toList, none, none⟩,
     ⟨"e@f.co".toList, none, none⟩] rfl (by simp [chunkArray, List.findSome?])

theorem setKey_append_of_fresh (d : List (List Char × JSValue)) (k : List Char)
    (v : JSValue) (h : ∀ kv ∈ d, kv.1 ≠ k) :
    setKey d k v = d ++ [(k, v)] := by
  have hne : ¬(d.any (fun kv => kv.1 == k) = true) := by
    intro hcon
    rw [List.any_eq_true] at hcon
    obtain ⟨kv, hkv, hp⟩ := hcon
    exact h kv hkv (eq_of_beq hp)
  unfold setKey
  rw [if_neg hne]

/-- C10: whenever a recipient has `personalizedData`, both the immediate
path and the queue-consumer lambda silently augment the substitution map
with `recipientEmail` (the address) and `recipientName` (the name; the
`undefined` entry substitutes as the empty string when the name is absent)
before token replacement, so those tokens are substituted although the
caller never put the keys in the map; recipients without `personalizedData`
receive the base content untouched. -/
theorem contentFor_augmented_tokens (base : EmailContent) (r : Recipient)
    (d : List (List Char × JSValue))
    (hd : r.personalizedData = some d)
    (he : ∀ kv ∈ d, kv.1 ≠ "recipientEmail".toList)
    (hn : ∀ kv ∈ d, kv.1 ≠ "recipientName".toList) :
    augmentData d r = d ++ [("recipientEmail".toList, .vStr r.email),
      ("recipientName".toList, recipientNameVal r)] ∧
    contentFor base r = personalizeContent base (augmentData d r) ∧
    (∀ (base' : EmailContent) (r' : Recipient), r'.personalizedData = none →
      contentFor base' r' = base') ∧
    substVal (JSValue.vStr r.email) = r.email ∧
    substVal (recipientNameVal r) = r.name.getD [] ∧
    (∀ subject html text, lambdaContentFor subject html text r =
      (replaceTokens subject (augmentData d r),
       replaceTokens html (augmentData d r),
       text.map (fun t => replaceTokens t (augmentData d r)))) ∧
    replaceTokens (mkToken "recipientEmail".toList)
      (augmentData [] ⟨"a@b.co".toList, none, none⟩) = "a@b.co".toList ∧
    replaceTokens (mkToken "recipientName".toList)
      (augmentData [] ⟨"a@b.co".toList, none, none⟩) = [] := by
  refine ⟨?_, ?_, ?_, ?_, ?_, ?_, ?_, ?_⟩
  · unfold augmentData
    have h2 : ∀ kv ∈ d ++ [("recipientEmail".toList, JSValue.vStr r.email)],
        kv.1 ≠ "recipientName".toList := by
      intro kv hkv
      rcases List.mem_append.mp hkv with hkv | hkv
      · exact hn kv hkv
      · rw [List.mem_singleton] at hkv
        subst hkv
        show "recipientEmail".toList ≠ "recipientName".toList
        decide
    rw [setKey_append_of_fresh d _ _ he, setKey_append_of_fresh _ _ _ h2,
      List.append_assoc]
    rfl
  · unfold contentFor
    rw [hd]
  · intro base' r' hnone
    unfold contentFor
    rw [hnone]
  · cases hemail : r.email <;> simp [substVal, jsTruthy, jsString]
  · cases hname : r.name with
    | none => simp [recipientNameVal, hname, substVal, jsTruthy]
    | some nm =>
      cases nm <;> simp [recipientNameVal, hname, substVal, jsTruthy, jsString]
  · intro subject html text
    unfold lambdaContentFor
    rw [hd]
  · simp [replaceTokens, augmentData, setKey, recipientNameVal, substVal,
      jsTruthy, jsString, mkToken, replaceAllL]
  · simp [replaceTokens, augmentData, setKey, recipientNameVal, substVal,
      jsTruthy, jsString, mkToken, replaceAllL]

/-- Witness for C10: a recipient with an empty personalization map and no
name — the augmented map is exactly the two injected entries. -/
theorem contentFor_augmented_tokens_witness :
    augmentData [] ⟨"a@b.co".toList, none, some []⟩ =
      [("recipientEmail".toList, JSValue.vStr "a@b.co".toList),
       ("recipientName".toList, JSValue.vUndefined)] := by
  have h := (contentFor_augmented_tokens ⟨[], [], []⟩
    ⟨"a@b.co".toList, none, some []⟩ [] rfl (by simp) (by simp)).1
  simpa [recipientNameVal] using h
